import Mathlib

/-!
Shallow embedding of `src/codec.py` (information-theory-app): Huffman coding,
Hamming(7,4) ECC, a deterministic corruption simulator, and the full pipeline.

Modelling conventions:
* Python strings of characters are `List Char`; bitstrings are `List Char`
  over the characters '0' and '1', exactly as in the source.
* Python float probabilities `count / total` are modelled as exact rationals
  (`ℚ`); no verified property depends on floating-point rounding.
* Python's `heapq` functions (`heapify`, `heappush`, `heappop` and the
  internal `_siftdown`, `_siftup`) are translated literally; loops carry a
  fuel counter whose bound is chosen so that fuel can only run out at a point
  where the loop guard is already false, so the fuel-free semantics is
  preserved while keeping every definition kernel-reducible.
* `random.randint` (Python's seeded Mersenne Twister, external to the
  repository) is abstracted as a function parameter `rand : Nat → Nat → Nat`
  giving the draw `randint(lo, hi)` of the generator after seeding.
* Functions that raise in Python (`KeyError` from dict indexing, `ValueError`
  from the Hamming length check) return `Option`/`Except`.
-/

/-- The `HuffmanNode` class of `codec.py`: optional symbol, probability,
optional left and right children. -/
inductive HuffmanNode : Type where
  | mk (symbol : Option Char) (prob : ℚ) (left : Option HuffmanNode) (right : Option HuffmanNode)

instance : Inhabited HuffmanNode := ⟨.mk none 0 none none⟩

def HuffmanNode.symbol : HuffmanNode → Option Char
  | .mk s _ _ _ => s

def HuffmanNode.prob : HuffmanNode → ℚ
  | .mk _ p _ _ => p

def HuffmanNode.left : HuffmanNode → Option HuffmanNode
  | .mk _ _ l _ => l

def HuffmanNode.right : HuffmanNode → Option HuffmanNode
  | .mk _ _ _ r => r

/-- Addition on `ℚ`, written through `mkRat` so that it is kernel-reducible
(the library `+` on `Rat` is `@[irreducible]`); `qadd_eq` shows that it is
exactly addition. -/
def qadd (a b : ℚ) : ℚ := mkRat (a.num * b.den + b.num * a.den) (a.den * b.den)

/-- `heapq._siftdown(heap, startpos, pos)` with `newitem = heap[pos]` passed
explicitly (every caller has just written `newitem` at index `pos` or knows
the value there).  The loop moves parents down while `newitem < parent`
(`HuffmanNode.__lt__` compares `prob`).  Fuel: each iteration strictly
decreases `pos`, so `pos` iterations suffice; at fuel 0 necessarily
`pos = 0 ≤ startpos` and the loop guard is false, so the fuel-0 result
coincides with the guard-false result. -/
def siftdownFuel : Nat → List HuffmanNode → Nat → Nat → HuffmanNode → List HuffmanNode
  | 0, heap, _, pos, newitem => heap.set pos newitem
  | fuel + 1, heap, startpos, pos, newitem =>
    if startpos < pos then
      let parentpos := (pos - 1) / 2
      let parent := heap.getD parentpos default
      if newitem.prob < parent.prob then
        siftdownFuel fuel (heap.set pos parent) startpos parentpos newitem
      else heap.set pos newitem
    else heap.set pos newitem

/-- `heapq._siftdown(heap, startpos, pos)`: reads `newitem = heap[pos]`. -/
def siftdown (heap : List HuffmanNode) (startpos pos : Nat) : List HuffmanNode :=
  siftdownFuel pos heap startpos pos (heap.getD pos default)

/-- `heapq._siftup(heap, pos)` with `newitem = heap[pos]` passed explicitly.
Bubbles the smaller child up into `pos` until reaching a leaf of the heap,
then restores `newitem` and calls `_siftdown`.  Fuel: `pos` strictly
increases each iteration while staying below `heap.length` (which `set`
preserves), so `heap.length` iterations suffice; at fuel 0 necessarily
`pos ≥ heap.length` and the guard `2*pos+1 < heap.length` is false, so the
fuel-0 result coincides with the guard-false result. -/
def siftupFuel : Nat → List HuffmanNode → Nat → Nat → HuffmanNode → List HuffmanNode
  | 0, heap, startpos, pos, newitem => siftdown (heap.set pos newitem) startpos pos
  | fuel + 1, heap, startpos, pos, newitem =>
    if 2 * pos + 1 < heap.length then
      let childpos :=
        if 2 * pos + 2 < heap.length ∧
            ¬ (heap.getD (2 * pos + 1) default).prob < (heap.getD (2 * pos + 2) default).prob
        then 2 * pos + 2 else 2 * pos + 1
      siftupFuel fuel (heap.set pos (heap.getD childpos default)) startpos childpos newitem
    else siftdown (heap.set pos newitem) startpos pos

/-- `heapq._siftup(heap, pos)`: reads `newitem = heap[pos]`. -/
def siftup (heap : List HuffmanNode) (pos : Nat) : List HuffmanNode :=
  siftupFuel heap.length heap pos pos (heap.getD pos default)

/-- The loop of `heapq.heapify`: `for i in reversed(range(n // 2)): _siftup(heap, i)`. -/
def heapifyAux : List HuffmanNode → Nat → List HuffmanNode
  | heap, 0 => heap
  | heap, i + 1 => heapifyAux (siftup heap i) i

/-- `heapq.heapify(heap)`. -/
def heapify (heap : List HuffmanNode) : List HuffmanNode :=
  heapifyAux heap (heap.length / 2)

/-- `heapq.heappush(heap, item)`: append, then `_siftdown(heap, 0, len(heap)-1)`
(the item just appended sits at index `heap.length`). -/
def heappush (heap : List HuffmanNode) (item : HuffmanNode) : List HuffmanNode :=
  siftdown (heap ++ [item]) 0 heap.length

/-- `heapq.heappop(heap)`: `lastelt = heap.pop()`; if the remaining heap is
non-empty, return its first element after writing `lastelt` at index 0 and
sifting up; otherwise return `lastelt`.  `none` models the `IndexError` on an
empty heap (never reached by `build_huffman_tree`). -/
def heappop (heap : List HuffmanNode) : Option (HuffmanNode × List HuffmanNode) :=
  match heap.getLast? with
  | none => none
  | some lastelt =>
    match heap.dropLast with
    | [] => some (lastelt, [])
    | r0 :: rest => some (r0, siftup ((r0 :: rest).set 0 lastelt) 0)

/-- The merge loop of `build_huffman_tree`: while more than one node remains,
pop the two lowest, merge them (first popped becomes `left`, second `right`)
and push the parent.  Fuel: each iteration shrinks the heap by one, so
`heap.length` iterations suffice and fuel never runs out mid-loop. -/
def buildFuel : Nat → List HuffmanNode → List HuffmanNode
  | 0, heap => heap
  | fuel + 1, heap =>
    if 1 < heap.length then
      match heappop heap with
      | none => heap
      | some (n1, h1) =>
        match heappop h1 with
        | none => h1
        | some (n2, h2) =>
          buildFuel fuel (heappush h2 (.mk none (qadd n1.prob n2.prob) (some n1) (some n2)))
    else heap

/-- `build_huffman_tree(probabilities)`: seed a heap with one leaf per symbol,
`heapify`, special-case a single symbol by wrapping it as the left child of a
synthetic root, otherwise run the merge loop and return `heap[0]`. -/
def build_huffman_tree (probabilities : List (Char × ℚ)) : Option HuffmanNode :=
  let heap := probabilities.map fun sp => HuffmanNode.mk (some sp.1) sp.2 none none
  if heap.isEmpty then none
  else
    let heap1 := heapify heap
    if heap1.length = 1 then
      let only := heap1.getD 0 default
      some (.mk none only.prob (some only) none)
    else
      some ((buildFuel heap1.length heap1).getD 0 default)

/-- Helper for `compute_symbol_probabilities`: the distinct characters of a
text in first-occurrence order, the iteration order of `collections.Counter`. -/
def firstOccsAux (seen : List Char) : List Char → List Char
  | [] => []
  | c :: cs => if c ∈ seen then firstOccsAux seen cs else c :: firstOccsAux (c :: seen) cs

def firstOccs (text : List Char) : List Char := firstOccsAux [] text

/-- `compute_symbol_probabilities(text)`: empty dict for empty text, otherwise
`{sym: counts[sym] / total}` with `total = sum(counts.values())`, keys in
first-occurrence order (Python dict iteration order).  The quotient is
written `mkRat count total` so that it is kernel-reducible;
`compute_symbol_probabilities_prob` shows it is the division
`(count : ℚ) / (total : ℚ)`. -/
def compute_symbol_probabilities (text : List Char) : List (Char × ℚ) :=
  if text = [] then []
  else
    let counts := (firstOccs text).map fun sym => (sym, text.count sym)
    let total : Nat := (counts.map fun sc => sc.2).sum
    counts.map fun sc => (sc.1, mkRat sc.2 total)

/-- The recursive `traverse(node, pfx)` of `build_huffman_codes`, returning
the `(symbol, code)` assignments in traversal order: a node with a symbol
records `pfx` (or "0" when `pfx` is the empty string); otherwise the left
child is visited with `pfx + "0"` and the right child with `pfx + "1"`. -/
def collectCodes : HuffmanNode → List Char → List (Char × List Char)
  | .mk (some s) _ _ _, pfx => [(s, if pfx = [] then ['0'] else pfx)]
  | .mk none _ (some l) (some r), pfx =>
      collectCodes l (pfx ++ ['0']) ++ collectCodes r (pfx ++ ['1'])
  | .mk none _ (some l) none, pfx => collectCodes l (pfx ++ ['0'])
  | .mk none _ none (some r), pfx => collectCodes r (pfx ++ ['1'])
  | .mk none _ none none, _ => []

/-- `build_huffman_codes(root)`: empty dict for `None`, else the assignments
of `traverse(root, "")`.  The dict is modelled as the association list of
assignments; lookup (`dictGet`) takes the last assignment, matching Python
dict writes where a later `codes[sym] = ...` overwrites an earlier one. -/
def build_huffman_codes : Option HuffmanNode → List (Char × List Char)
  | none => []
  | some root => collectCodes root []

/-- Python dict lookup over an assignment list: the last binding wins. -/
def dictGet {α : Type} (d : List (Char × α)) (k : Char) : Option α :=
  match d with
  | [] => none
  | kv :: rest =>
    match dictGet rest k with
    | some v => some v
    | none => if k = kv.1 then some kv.2 else none

/-- `huffman_encode(text, codes)`: concatenate `codes[ch]` over the text in
input order; `none` models the `KeyError` raised when some character of the
text is absent from the table. -/
def huffman_encode (text : List Char) (codes : List (Char × List Char)) : Option (List Char) :=
  match text with
  | [] => some []
  | ch :: rest =>
    match dictGet codes ch, huffman_encode rest codes with
    | some c, some cs => some (c ++ cs)
    | _, _ => none

/-- The traversal loop of `huffman_decode`: step left on '0' / right on '1';
stop silently on a missing child; on a node carrying a symbol, emit it and
reset to the root. -/
def decodeGo (root : HuffmanNode) : HuffmanNode → List Char → List Char
  | _, [] => []
  | node, b :: bs =>
    match (if b = '0' then node.left else node.right) with
    | none => []
    | some nxt =>
      match nxt.symbol with
      | some s => s :: decodeGo root root bs
      | none => decodeGo root nxt bs

/-- `huffman_decode(bits, root)`. -/
def huffman_decode (bits : List Char) : Option HuffmanNode → List Char
  | none => []
  | some root => decodeGo root root bits

/-- The traversal loop of `huffman_decode_safe`: as `decodeGo`, but reports
`false` when a missing child cuts the traversal short and `true` when the
whole bit sequence is consumed. -/
def decodeSafeGo (root : HuffmanNode) : HuffmanNode → List Char → List Char × Bool
  | _, [] => ([], true)
  | node, b :: bs =>
    match (if b = '0' then node.left else node.right) with
    | none => ([], false)
    | some nxt =>
      match nxt.symbol with
      | some s =>
        let res := decodeSafeGo root root bs
        (s :: res.1, res.2)
      | none => decodeSafeGo root nxt bs

/-- `huffman_decode_safe(bits, root)`. -/
def huffman_decode_safe (bits : List Char) : Option HuffmanNode → List Char × Bool
  | none => ([], true)
  | some root => decodeSafeGo root root bits

/-- `_bitstr_to_int_list(bits)`: `[1 if b == "1" else 0 for b in bits]`. -/
def bitstr_to_int_list (bits : List Char) : List Nat :=
  bits.map fun b => if b = '1' then 1 else 0

/-- `_int_list_to_bitstr(bits)`: `"".join("1" if b else "0" for b in bits)`
(`b` is truthy exactly when nonzero). -/
def int_list_to_bitstr (bits : List Nat) : List Char :=
  bits.map fun b => if b ≠ 0 then '1' else '0'

/-- Python `int(ch)` on a decimal digit character. -/
def charDigit (c : Char) : Nat := c.toNat - 48

/-- The block loop of `hamming_7_4_encode`: consume the (already padded)
data 4 bits at a time, compute `p1 = d1^d2^d4`, `p2 = d1^d3^d4`,
`p4 = d2^d3^d4` and emit `[p1, p2, d1, p4, d2, d3, d4]`.  The input length
is a multiple of 4, so the fallthrough case only ever sees `[]`. -/
def encodeGroups : List Nat → List Nat
  | d1 :: d2 :: d3 :: d4 :: rest =>
    let p1 := d1 ^^^ d2 ^^^ d4
    let p2 := d1 ^^^ d3 ^^^ d4
    let p4 := d2 ^^^ d3 ^^^ d4
    p1 :: p2 :: d1 :: p4 :: d2 :: d3 :: d4 :: encodeGroups rest
  | _ => []

/-- `hamming_7_4_encode(bitstring)`: pad on the right with
`(4 - len % 4) % 4` zero bits, encode the 4-bit groups, return the encoded
bitstring together with the pad count. -/
def hamming_7_4_encode (bitstring : List Char) : List Char × Nat :=
  if bitstring = [] then ([], 0)
  else
    let pad_bits := (4 - bitstring.length % 4) % 4
    let padded := bitstring ++ List.replicate pad_bits '0'
    (int_list_to_bitstr (encodeGroups (padded.map charDigit)), pad_bits)

/-- The flip loop of `add_errors`:
`for i in range(start_index, len(bits), interval): bits[i] = "0" if bits[i] == "1" else "1"`.
Fuel: with `interval ≥ 1`, `i` grows by at least one per iteration, so
`bits.length` iterations suffice (at fuel 0 necessarily `i ≥ bits.length`
and the guard is false, so the fuel-0 result coincides). -/
def flipFuel : Nat → Nat → List Char → Nat → List Char
  | 0, _, bits, _ => bits
  | fuel + 1, interval, bits, i =>
    if i < bits.length then
      flipFuel fuel interval (bits.set i (if bits.getD i ' ' = '1' then '0' else '1')) (i + interval)
    else bits

/-- `add_errors(bitstring, interval, seed)`: unchanged on empty input or
non-positive interval; otherwise draw `start_index = randint(0, max(0, interval-1))`
when `interval > 1` (else 0) and flip every `interval`-th bit from there.
The seeded generator's draw is abstracted by `rand`. -/
def add_errors (rand : Nat → Nat → Nat) (bitstring : List Char) (interval : Int) : List Char :=
  if bitstring = [] ∨ interval ≤ 0 then bitstring
  else
    let start_index := if 1 < interval then rand 0 (max 0 (interval - 1)).toNat else 0
    flipFuel bitstring.length interval.toNat bitstring start_index

/-- The block loop of `hamming_7_4_decode`: per 7-bit block compute the
syndrome `error_pos = s1 + 2*s2 + 4*s4`; if nonzero, flip the bit at 1-based
position `error_pos` in the block; then extract data positions 3, 5, 6, 7.
The input length is a multiple of 7, so the fallthrough only sees `[]`. -/
def decodeBlocksCorrect : List Nat → List Nat
  | b1 :: b2 :: b3 :: b4 :: b5 :: b6 :: b7 :: rest =>
    let s1 := b1 ^^^ b3 ^^^ b5 ^^^ b7
    let s2 := b2 ^^^ b3 ^^^ b6 ^^^ b7
    let s4 := b4 ^^^ b5 ^^^ b6 ^^^ b7
    let error_pos := s1 + 2 * s2 + 4 * s4
    let block := [b1, b2, b3, b4, b5, b6, b7]
    let fixed :=
      if error_pos ≠ 0 then block.set (error_pos - 1) ((block.getD (error_pos - 1) 0) ^^^ 1)
      else block
    (fixed.getD 2 0) :: (fixed.getD 4 0) :: (fixed.getD 5 0) :: (fixed.getD 6 0) ::
      decodeBlocksCorrect rest
  | _ => []

/-- The block loop of `hamming_7_4_decode_no_correction`: extract data
positions 3, 5, 6, 7 of each 7-bit block without looking at the syndrome. -/
def decodeBlocksRaw : List Nat → List Nat
  | _b1 :: _b2 :: b3 :: _b4 :: b5 :: b6 :: b7 :: rest =>
    b3 :: b5 :: b6 :: b7 :: decodeBlocksRaw rest
  | _ => []

/-- `hamming_7_4_decode(encoded_bits, pad_bits)`: empty in, empty out; a
length not divisible by 7 raises `ValueError` (modelled as `Except.error`);
otherwise decode each block with single-bit correction and strip the last
`pad_bits` data bits (Python `data_bits[:-pad_bits]`). -/
def hamming_7_4_decode (encoded_bits : List Char) (pad_bits : Nat) : Except String (List Char) :=
  if encoded_bits = [] then .ok []
  else if encoded_bits.length % 7 ≠ 0 then
    .error "Hamming(7,4) encoded length must be multiple of 7."
  else
    let bits := bitstr_to_int_list encoded_bits
    let data_bits := decodeBlocksCorrect bits
    let trimmed := if 0 < pad_bits then data_bits.take (data_bits.length - pad_bits) else data_bits
    .ok (int_list_to_bitstr trimmed)

/-- `hamming_7_4_decode_no_correction(encoded_bits, pad_bits)`. -/
def hamming_7_4_decode_no_correction (encoded_bits : List Char) (pad_bits : Nat) :
    Except String (List Char) :=
  if encoded_bits = [] then .ok []
  else if encoded_bits.length % 7 ≠ 0 then
    .error "Hamming(7,4) encoded length must be multiple of 7."
  else
    let bits := bitstr_to_int_list encoded_bits
    let data_bits := decodeBlocksRaw bits
    let trimmed := if 0 < pad_bits then data_bits.take (data_bits.length - pad_bits) else data_bits
    .ok (int_list_to_bitstr trimmed)

def exceptDecEq {ε α : Type} [DecidableEq ε] [DecidableEq α] :
    (a b : Except ε α) → Decidable (a = b)
  | .error e1, .error e2 =>
    match decEq e1 e2 with
    | isTrue h => isTrue (by rw [h])
    | isFalse h => isFalse fun hh => h (Except.error.inj hh)
  | .error _, .ok _ => isFalse fun h => Except.noConfusion h
  | .ok _, .error _ => isFalse fun h => Except.noConfusion h
  | .ok a1, .ok a2 =>
    match decEq a1 a2 with
    | isTrue h => isTrue (by rw [h])
    | isFalse h => isFalse fun hh => h (Except.ok.inj hh)

instance {ε α : Type} [DecidableEq ε] [DecidableEq α] : DecidableEq (Except ε α) :=
  exceptDecEq

/-- The result dict of `run_full_pipeline`. -/
structure PipelineResult where
  text_length : Nat
  probabilities : List (Char × ℚ)
  codes : List (Char × List Char)
  encoded_bits : List Char
  decoded_text : List Char
  hamming_bits : List Char
  pad_bits : Nat
  corrupted_bits : List Char
  corrupted_data_bits : List Char
  corrupted_decoded_text : List Char
  corrupted_decode_ok : Bool
  recovered_bits : List Char
  recovered_decoded_text : List Char
  recovered_text_ok : Bool
  huffman_ok : Bool
  hamming_ok : Bool
deriving DecidableEq

/-- `run_full_pipeline(text, error_interval)`.  The internal corruption seed
2024 is fixed in the source; the seeded generator's draw is abstracted by
`rand`.  Exceptions raised by the Hamming decoders (and a `KeyError` from
`huffman_encode`, which cannot occur for a table built from the same text)
propagate as `Except.error`. -/
def run_full_pipeline (rand : Nat → Nat → Nat) (text : List Char) (error_interval : Int) :
    Except String PipelineResult := do
  let probs := compute_symbol_probabilities text
  let root := build_huffman_tree probs
  let codes := build_huffman_codes root
  let encoded_bits ←
    if text = [] then Except.ok [] else
      match huffman_encode text codes with
      | some bits => Except.ok bits
      | none => Except.error "KeyError"
  let decoded_text := huffman_decode encoded_bits root
  let hb := hamming_7_4_encode encoded_bits
  let hamming_bits := hb.1
  let pad_bits := hb.2
  let corrupted_bits := add_errors rand hamming_bits error_interval
  let corrupted_data_bits ← hamming_7_4_decode_no_correction corrupted_bits pad_bits
  let sd := huffman_decode_safe corrupted_data_bits root
  let recovered_bits ← hamming_7_4_decode corrupted_bits pad_bits
  let recovered_decoded_text := huffman_decode recovered_bits root
  Except.ok
    { text_length := text.length
      probabilities := probs
      codes := codes
      encoded_bits := encoded_bits
      decoded_text := decoded_text
      hamming_bits := hamming_bits
      pad_bits := pad_bits
      corrupted_bits := corrupted_bits
      corrupted_data_bits := corrupted_data_bits
      corrupted_decoded_text := sd.1
      corrupted_decode_ok := sd.2
      recovered_bits := recovered_bits
      recovered_decoded_text := recovered_decoded_text
      recovered_text_ok := decide (recovered_decoded_text = text)
      huffman_ok := decide (decoded_text = text)
      hamming_ok := decide (recovered_bits = encoded_bits) }

/-! ### Auxiliary definitions for stating the verified properties -/

/-- The symbols at the leaves of a tree, in left-to-right order.  A node that
carries a symbol is a leaf for `build_huffman_codes` (its `traverse` records
the symbol and does not descend further), so such a node contributes exactly
its own symbol. -/
def leafSyms : HuffmanNode → List Char
  | .mk (some s) _ _ _ => [s]
  | .mk none _ (some l) (some r) => leafSyms l ++ leafSyms r
  | .mk none _ (some l) none => leafSyms l
  | .mk none _ none (some r) => leafSyms r
  | .mk none _ none none => []

/-- Size of a tree (number of nodes), used for bounded induction. -/
def hsize : HuffmanNode → Nat
  | .mk _ _ (some l) (some r) => 1 + hsize l + hsize r
  | .mk _ _ (some l) none => 1 + hsize l
  | .mk _ _ none (some r) => 1 + hsize r
  | .mk _ _ none none => 1

/-- `PathTo node code s`: following `code` from `node` (left on '0', right
on everything else, as in the decoder), every child on the way exists,
strictly intermediate nodes carry no symbol, and the node reached by the
last step carries symbol `s`. -/
inductive PathTo : HuffmanNode → List Char → Char → Prop where
  | last {node : HuffmanNode} {b : Char} {nxt : HuffmanNode} {s : Char} :
      (if b = '0' then node.left else node.right) = some nxt →
      nxt.symbol = some s → PathTo node [b] s
  | step {node : HuffmanNode} {b : Char} {nxt : HuffmanNode} {bs : List Char} {s : Char} :
      (if b = '0' then node.left else node.right) = some nxt →
      nxt.symbol = none → PathTo nxt bs s → PathTo node (b :: bs) s

/-- `codePref a b`: the bit string `a` is an initial segment of `b`. -/
def codePref (a b : List Char) : Prop := ∃ t, a ++ t = b

/-- Complement of a bit character: '0' ↔ '1'. -/
def flipBit (c : Char) : Char := if c = '1' then '0' else '1'

/-- XOR of two bit characters (for bit characters, "differ" is exactly ⊕). -/
def bitXor (a b : Char) : Char := if a = b then '0' else '1'

/-- Modelled from the spec (§4.4 `encode`), for comparison with the block
loop of `hamming_7_4_encode`: each 4-bit group `(d1,d2,d3,d4)` becomes the
7-bit block `(p1,p2,d1,p4,d2,d3,d4)` with `p1 = d1⊕d2⊕d4`, `p2 = d1⊕d3⊕d4`,
`p4 = d2⊕d3⊕d4`. -/
def hammingEncodeSpecGroups : List Char → List Char
  | d1 :: d2 :: d3 :: d4 :: rest =>
    bitXor (bitXor d1 d2) d4 :: bitXor (bitXor d1 d3) d4 :: d1 ::
      bitXor (bitXor d2 d3) d4 :: d2 :: d3 :: d4 :: hammingEncodeSpecGroups rest
  | _ => []

/-- Modelled from the spec (§4.4 `encode`): pad with `(4 - len % 4) % 4`
zero bits on the right, then emit the 7-bit blocks of the 4-bit groups. -/
def hammingEncodeSpec (B : List Char) : List Char × Nat :=
  let pad := (4 - B.length % 4) % 4
  (hammingEncodeSpecGroups (B ++ List.replicate pad '0'), pad)

/-- Mirror of the `huffman_decode_safe` traversal that reports whether the
traversal was cut short by a missing child. -/
def cutShortGo (root : HuffmanNode) : HuffmanNode → List Char → Bool
  | _, [] => false
  | node, b :: bs =>
    match (if b = '0' then node.left else node.right) with
    | none => true
    | some nxt =>
      match nxt.symbol with
      | some _ => cutShortGo root root bs
      | none => cutShortGo root nxt bs

/-- Whether decoding `bits` against a tree hits a missing child. -/
def cutShort (bits : List Char) : Option HuffmanNode → Bool
  | none => false
  | some root => cutShortGo root root bits

/-- Formalisation of the spec's wording for when the `decode_safe` flag
should be `true`: the whole bit sequence is consumed with no missing child
and the traversal ends "exactly at a leaf or at the root with no dangling
partial code".  The traversal resets to the root the moment it reaches a
symbol-carrying node, so both allowed end states amount to: the tracked
position is back at the root; the extra boolean argument tracks exactly
that. -/
def consumedCleanlyGo (root : HuffmanNode) : HuffmanNode → Bool → List Char → Bool
  | _, atRoot, [] => atRoot
  | node, _, b :: bs =>
    match (if b = '0' then node.left else node.right) with
    | none => false
    | some nxt =>
      match nxt.symbol with
      | some _ => consumedCleanlyGo root root true bs
      | none => consumedCleanlyGo root nxt false bs

/-- Whether the whole bit sequence is consumed cleanly, ending at a leaf or
at the root with no dangling partial code (spec wording, §4.3). -/
def consumedCleanly (bits : List Char) : Option HuffmanNode → Bool
  | none => true
  | some root => consumedCleanlyGo root root true bits

/-! ### Bridge lemmas for the kernel-reducible rational operations -/

/-- `qadd` is addition on `ℚ`. -/
theorem qadd_eq (a b : ℚ) : qadd a b = a + b := (Rat.add_def' a b).symm

/-- The probability stored by `compute_symbol_probabilities` is the exact
division `count / total`. -/
theorem compute_symbol_probabilities_prob (c t : Nat) :
    mkRat c t = (c : ℚ) / (t : ℚ) := by
  rw [Rat.mkRat_eq_div]; norm_num

/-! ### Hamming(7,4) lemmas -/

/-- Converting a 0/1 integer list to a bitstring and back is the identity. -/
theorem bitstr_int_roundtrip : ∀ (nl : List Nat), (∀ x ∈ nl, x = 0 ∨ x = 1) →
    bitstr_to_int_list (int_list_to_bitstr nl) = nl
  | [], _ => rfl
  | x :: rest, h => by
    have hx := h x (by simp)
    have ih := bitstr_int_roundtrip rest (fun y hy => h y (by simp [hy]))
    rcases hx with hx | hx <;>
      simp [bitstr_to_int_list, int_list_to_bitstr, hx] <;>
      simpa [bitstr_to_int_list, int_list_to_bitstr] using ih

/-- Converting a bitstring to digits and back is the identity. -/
theorem int_list_bitstr_charDigit : ∀ (l : List Char), (∀ c ∈ l, c = '0' ∨ c = '1') →
    int_list_to_bitstr (l.map charDigit) = l
  | [], _ => rfl
  | c :: rest, h => by
    have hc := h c (by simp)
    have ih := int_list_bitstr_charDigit rest (fun y hy => h y (by simp [hy]))
    rcases hc with hc | hc <;>
      simp [int_list_to_bitstr, charDigit, hc] <;>
      simpa [int_list_to_bitstr] using ih

/-- The encoder's output bits are again 0/1. -/
theorem encodeGroups_binary : ∀ (l : List Nat), (∀ x ∈ l, x = 0 ∨ x = 1) →
    ∀ y ∈ encodeGroups l, y = 0 ∨ y = 1
  | [], _ => by simp [encodeGroups]
  | [_], _ => by simp [encodeGroups]
  | [_, _], _ => by simp [encodeGroups]
  | [_, _, _], _ => by simp [encodeGroups]
  | d1 :: d2 :: d3 :: d4 :: rest, h => by
    have h1 := h d1 (by simp); have h2 := h d2 (by simp)
    have h3 := h d3 (by simp); have h4 := h d4 (by simp)
    have ih := encodeGroups_binary rest (fun y hy => h y (by simp [hy]))
    intro y hy
    rcases h1 with h1 | h1 <;> rcases h2 with h2 | h2 <;>
      rcases h3 with h3 | h3 <;> rcases h4 with h4 | h4 <;>
      (subst h1 h2 h3 h4
       simp only [encodeGroups, List.mem_cons] at hy
       rcases hy with hy | hy | hy | hy | hy | hy | hy | hy <;>
         first
           | (subst hy; norm_num)
           | exact ih y hy)

/-- Length of the encoded stream: 7 bits per 4-bit group. -/
theorem encodeGroups_length : ∀ (l : List Nat), l.length % 4 = 0 →
    (encodeGroups l).length = 7 * (l.length / 4)
  | [], _ => rfl
  | [_], h => by simp at h
  | [_, _], h => by simp at h
  | [_, _, _], h => by simp at h
  | _d1 :: _d2 :: _d3 :: _d4 :: rest, h => by
    have hr : rest.length % 4 = 0 := by simp [List.length_cons] at h ⊢; omega
    have ih := encodeGroups_length rest hr
    simp [encodeGroups, List.length_cons, ih]
    omega

/-- A valid codeword has a zero syndrome, so decoding with correction
inverts the block encoder on 0/1 data. -/
theorem decode_encodeGroups : ∀ (l : List Nat), (∀ x ∈ l, x = 0 ∨ x = 1) →
    l.length % 4 = 0 → decodeBlocksCorrect (encodeGroups l) = l
  | [], _, _ => rfl
  | [_], _, hl => by simp at hl
  | [_, _], _, hl => by simp at hl
  | [_, _, _], _, hl => by simp at hl
  | d1 :: d2 :: d3 :: d4 :: rest, h, hl => by
    have h1 := h d1 (by simp); have h2 := h d2 (by simp)
    have h3 := h d3 (by simp); have h4 := h d4 (by simp)
    have hr : rest.length % 4 = 0 := by simp [List.length_cons] at hl ⊢; omega
    have ih := decode_encodeGroups rest (fun y hy => h y (by simp [hy])) hr
    rcases h1 with h1 | h1 <;> rcases h2 with h2 | h2 <;>
      rcases h3 with h3 | h3 <;> rcases h4 with h4 | h4 <;>
      (subst h1 h2 h3 h4; simp [encodeGroups, decodeBlocksCorrect, ih])

/-- Bits of the padded stream are 0/1 when the input bits are. -/
theorem padded_binary (B : List Char) (pad : Nat) (hb : ∀ c ∈ B, c = '0' ∨ c = '1') :
    ∀ x ∈ (B ++ List.replicate pad '0').map charDigit, x = 0 ∨ x = 1 := by
  intro x hx
  rcases List.mem_map.mp hx with ⟨c, hc, rfl⟩
  rcases List.mem_append.mp hc with hc | hc
  · rcases hb c hc with h | h <;> simp [charDigit, h]
  · have := List.eq_of_mem_replicate hc
    simp [charDigit, this]

/-- C2 helper: `hamming_7_4_encode` followed by `hamming_7_4_decode`
reproduces the input exactly. -/
theorem hamming_roundtrip (B : List Char) (hb : ∀ c ∈ B, c = '0' ∨ c = '1') :
    hamming_7_4_decode (hamming_7_4_encode B).1 (hamming_7_4_encode B).2 = Except.ok B := by
  by_cases hB : B = []
  · subst hB; rfl
  · set pad := (4 - B.length % 4) % 4 with hpad
    set padded := B ++ List.replicate pad '0' with hpadded
    have henc : hamming_7_4_encode B =
        (int_list_to_bitstr (encodeGroups (padded.map charDigit)), pad) := by
      simp [hamming_7_4_encode, hB, hpad, hpadded]
    have hlenB : 0 < B.length := List.length_pos.mpr hB
    have hlenpadded : (padded.map charDigit).length = B.length + pad := by
      simp [hpadded, List.length_append, List.length_replicate]
    have hlen4 : (padded.map charDigit).length % 4 = 0 := by
      rw [hlenpadded]; rw [hpad]; omega
    have hbin := padded_binary B pad hb
    have hencbin := encodeGroups_binary _ hbin
    have hlen7 : (encodeGroups (padded.map charDigit)).length = 7 * ((padded.map charDigit).length / 4) :=
      encodeGroups_length _ hlen4
    have hlenpos : 0 < (encodeGroups (padded.map charDigit)).length := by
      rw [hlen7, hlenpadded]
      rw [hlenpadded] at hlen4
      omega
    have hne : int_list_to_bitstr (encodeGroups (padded.map charDigit)) ≠ [] := by
      intro hcon
      have hl := congrArg List.length hcon
      simp only [int_list_to_bitstr, List.length_map, List.length_nil] at hl
      omega
    have hmod7 : (int_list_to_bitstr (encodeGroups (padded.map charDigit))).length % 7 = 0 := by
      simp only [int_list_to_bitstr, List.length_map]
      rw [hlen7]
      omega
    rw [henc]
    simp only [hamming_7_4_decode]
    rw [if_neg hne, if_neg (by simpa using hmod7)]
    rw [show bitstr_to_int_list (int_list_to_bitstr (encodeGroups (padded.map charDigit))) =
          encodeGroups (padded.map charDigit) from bitstr_int_roundtrip _ hencbin]
    rw [decode_encodeGroups _ hbin hlen4]
    by_cases hp : 0 < pad
    · rw [if_pos hp]
      have htake : (padded.map charDigit).take ((padded.map charDigit).length - pad) =
          B.map charDigit := by
        rw [hlenpadded]
        simp only [hpadded, List.map_append, Nat.add_sub_cancel]
        rw [List.take_left']
        simp
      rw [htake, int_list_bitstr_charDigit B hb]
    · rw [if_neg hp]
      have hp0 : pad = 0 := by omega
      simp only [hpadded, hp0, List.replicate_zero, List.append_nil]
      rw [int_list_bitstr_charDigit B hb]

/-- C2: For every bit string B, if `hamming_7_4_encode(B)` returns
`(encoded, pad_bits)`, then `hamming_7_4_decode(encoded, pad_bits)` equals B
(ECC round trip under no noise, including B empty). -/
theorem C2_ecc_roundtrip (B : List Char) (hb : ∀ c ∈ B, c = '0' ∨ c = '1')
    (encoded : List Char) (pad_bits : Nat)
    (henc : hamming_7_4_encode B = (encoded, pad_bits)) :
    hamming_7_4_decode encoded pad_bits = Except.ok B := by
  have := hamming_roundtrip B hb
  rw [henc] at this
  exact this

/-- Witness for C2 at B = "1110". -/
theorem C2_ecc_roundtrip_witness :
    hamming_7_4_decode ['0', '0', '1', '0', '1', '1', '0'] 0 =
      Except.ok ['1', '1', '1', '0'] :=
  C2_ecc_roundtrip ['1', '1', '1', '0'] (by decide) _ _ (by decide)

/-- The characters of the padded stream are bit characters. -/
theorem padded_binary_chars (B : List Char) (pad : Nat) (hb : ∀ c ∈ B, c = '0' ∨ c = '1') :
    ∀ c ∈ B ++ List.replicate pad '0', c = '0' ∨ c = '1' := by
  intro c hc
  rcases List.mem_append.mp hc with hc | hc
  · exact hb c hc
  · exact Or.inl (List.eq_of_mem_replicate hc)

/-- The block loop of the implementation agrees with the spec's description
of the parity layout, on bit characters. -/
theorem encodeGroups_spec_eq : ∀ (l : List Char), (∀ c ∈ l, c = '0' ∨ c = '1') →
    int_list_to_bitstr (encodeGroups (l.map charDigit)) = hammingEncodeSpecGroups l
  | [], _ => rfl
  | [_], _ => rfl
  | [_, _], _ => rfl
  | [_, _, _], _ => rfl
  | d1 :: d2 :: d3 :: d4 :: rest, h => by
    have h1 := h d1 (by simp); have h2 := h d2 (by simp)
    have h3 := h d3 (by simp); have h4 := h d4 (by simp)
    have ih := encodeGroups_spec_eq rest (fun y hy => h y (by simp [hy]))
    rcases h1 with rfl | rfl <;> rcases h2 with rfl | rfl <;>
      rcases h3 with rfl | rfl <;> rcases h4 with rfl | rfl <;>
      simp [encodeGroups, hammingEncodeSpecGroups, int_list_to_bitstr, charDigit, bitXor, ih] <;>
      simpa [int_list_to_bitstr] using ih

/-- C6: `hamming_7_4_encode` pads with `(4 - len % 4) % 4` zero bits and maps
each 4-bit group `(d1,d2,d3,d4)` to `(p1,p2,d1,p4,d2,d3,d4)` with
`p1 = d1⊕d2⊕d4`, `p2 = d1⊕d3⊕d4`, `p4 = d2⊕d3⊕d4`; in particular encoding
"1110" yields ("0010110", 0). -/
theorem C6_encode_shape (B : List Char) (hb : ∀ c ∈ B, c = '0' ∨ c = '1') :
    hamming_7_4_encode B = hammingEncodeSpec B ∧
    (hamming_7_4_encode B).2 = (4 - B.length % 4) % 4 ∧
    hamming_7_4_encode ['1', '1', '1', '0'] = (['0', '0', '1', '0', '1', '1', '0'], 0) := by
  refine ⟨?_, ?_, by decide⟩
  · by_cases hB : B = []
    · subst hB; rfl
    · have hbinp := padded_binary_chars B ((4 - B.length % 4) % 4) hb
      simp only [hamming_7_4_encode, hammingEncodeSpec, hB, if_neg hB]
      exact congrArg (fun x => (x, (4 - B.length % 4) % 4)) (encodeGroups_spec_eq _ hbinp)
  · by_cases hB : B = []
    · subst hB; decide
    · simp [hamming_7_4_encode, hB]

/-- Witness for C6 at B = "1110". -/
theorem C6_encode_shape_witness :
    hamming_7_4_encode ['1', '1', '1', '0'] = hammingEncodeSpec ['1', '1', '1', '0'] ∧
    (hamming_7_4_encode ['1', '1', '1', '0']).2 = (4 - ([ '1', '1', '1', '0'] : List Char).length % 4) % 4 ∧
    hamming_7_4_encode ['1', '1', '1', '0'] = (['0', '0', '1', '0', '1', '1', '0'], 0) :=
  C6_encode_shape ['1', '1', '1', '0'] (by decide)

/-- C5: flipping exactly one bit of the 7-bit codeword of a 4-bit group is
undone by `hamming_7_4_decode`: the original 4 data bits are recovered. -/
theorem C5_single_error_corrected (c1 c2 c3 c4 : Char)
    (h1 : c1 = '0' ∨ c1 = '1') (h2 : c2 = '0' ∨ c2 = '1')
    (h3 : c3 = '0' ∨ c3 = '1') (h4 : c4 = '0' ∨ c4 = '1')
    (p : Nat) (hp : p < 7) :
    hamming_7_4_decode
      (((hamming_7_4_encode [c1, c2, c3, c4]).1).set p
        (flipBit (((hamming_7_4_encode [c1, c2, c3, c4]).1).getD p ' ')))
      (hamming_7_4_encode [c1, c2, c3, c4]).2 = Except.ok [c1, c2, c3, c4] := by
  rcases h1 with rfl | rfl <;> rcases h2 with rfl | rfl <;>
    rcases h3 with rfl | rfl <;> rcases h4 with rfl | rfl <;>
    interval_cases p <;> decide

/-- Witness for C5: group 1011, error at position 3 (0-based). -/
theorem C5_single_error_corrected_witness :
    hamming_7_4_decode
      (((hamming_7_4_encode ['1', '0', '1', '1']).1).set 3
        (flipBit (((hamming_7_4_encode ['1', '0', '1', '1']).1).getD 3 ' ')))
      (hamming_7_4_encode ['1', '0', '1', '1']).2 = Except.ok ['1', '0', '1', '1'] :=
  C5_single_error_corrected '1' '0' '1' '1' (by decide) (by decide) (by decide) (by decide)
    3 (by decide)

/-- C8: the Hamming decoders fail (raise) exactly when the encoded length is
not a multiple of 7, and return normally (an `ok` result) exactly when it is,
the empty string included. -/
theorem C8_decode_structural_fault (encoded_bits : List Char) (pad_bits : Nat) :
    ((∃ msg, hamming_7_4_decode encoded_bits pad_bits = Except.error msg) ↔
      encoded_bits.length % 7 ≠ 0) ∧
    ((∃ r, hamming_7_4_decode encoded_bits pad_bits = Except.ok r) ↔
      encoded_bits.length % 7 = 0) ∧
    ((∃ msg, hamming_7_4_decode_no_correction encoded_bits pad_bits = Except.error msg) ↔
      encoded_bits.length % 7 ≠ 0) ∧
    ((∃ r, hamming_7_4_decode_no_correction encoded_bits pad_bits = Except.ok r) ↔
      encoded_bits.length % 7 = 0) := by
  by_cases h0 : encoded_bits = []
  · subst h0
    simp [hamming_7_4_decode, hamming_7_4_decode_no_correction]
  · by_cases h7 : encoded_bits.length % 7 = 0 <;>
      simp [hamming_7_4_decode, hamming_7_4_decode_no_correction, h0, h7]

/-! ### Safe-decode flag (C3) -/

/-- The `huffman_decode_safe` traversal and the cut-short tracker walk in
lockstep: the returned flag is the negation of "a missing child was hit". -/
theorem decodeSafeGo_flag (root : HuffmanNode) :
    ∀ (bits : List Char) (node : HuffmanNode),
      (decodeSafeGo root node bits).2 = !(cutShortGo root node bits)
  | [], _ => rfl
  | b :: bs, node => by
    simp only [decodeSafeGo, cutShortGo]
    cases hc : (if b = '0' then node.left else node.right) with
    | none => rfl
    | some nxt =>
      cases hs : nxt.symbol with
      | some s => simpa [hs] using decodeSafeGo_flag root bs root
      | none => simpa [hs] using decodeSafeGo_flag root bs nxt

/-- C3 (amended): the flag returned by `huffman_decode_safe` is `false`
exactly when the traversal was cut short by a missing child, and `true`
otherwise — even when the bits end in a dangling partial code. -/
theorem C3_safe_flag_iff_not_cut_short (tree : Option HuffmanNode) (bits : List Char) :
    (huffman_decode_safe bits tree).2 = !(cutShort bits tree) := by
  cases tree with
  | none => rfl
  | some root => exact decodeSafeGo_flag root bits root

/-- C3 counterexample: on the tree built for "aabc" and the single bit "1",
the traversal consumes all bits without hitting a missing child, so the flag
is `true`, yet it ends at an internal non-root node — a dangling partial
code, which the claim says should make the flag `false`. -/
theorem C3_counterexample :
    (huffman_decode_safe ['1']
        (build_huffman_tree (compute_symbol_probabilities ['a', 'a', 'b', 'c']))).2 = true ∧
    consumedCleanly ['1']
        (build_huffman_tree (compute_symbol_probabilities ['a', 'a', 'b', 'c'])) = false := by
  decide

/-! ### Corruption simulator (C10) and empty pipeline (C9) -/

/-- The flip loop never changes the length. -/
theorem flipFuel_length : ∀ (fuel interval : Nat) (bits : List Char) (i : Nat),
    (flipFuel fuel interval bits i).length = bits.length
  | 0, _, _, _ => rfl
  | fuel + 1, interval, bits, i => by
    simp only [flipFuel]
    split
    · rw [flipFuel_length fuel]
      simp
    · rfl

/-- `add_errors` never changes the length. -/
theorem add_errors_length (rand : Nat → Nat → Nat) (bits : List Char) (interval : Int) :
    (add_errors rand bits interval).length = bits.length := by
  unfold add_errors
  split
  · rfl
  · exact flipFuel_length _ _ _ _

/-- `getD` after `set`. -/
theorem getD_set (l : List Char) (i j : Nat) (v : Char) (d : Char) :
    (l.set i v).getD j d = if i = j ∧ i < l.length then v else l.getD j d := by
  induction l generalizing i j with
  | nil => simp
  | cons x xs ih =>
    cases i with
    | zero =>
      cases j with
      | zero => simp
      | succ j => simp
    | succ i =>
      cases j with
      | zero => simp
      | succ j =>
        simp only [List.set, List.getD_cons_succ, List.length_cons, ih i j]
        by_cases h : i = j ∧ i < xs.length
        · rw [if_pos h, if_pos ⟨by omega, by omega⟩]
        · rw [if_neg h, if_neg (by omega)]

/-- The complement of a bit character is a bit character. -/
theorem flipBit_binary (c : Char) : flipBit c = '0' ∨ flipBit c = '1' := by
  unfold flipBit
  split <;> simp

/-- Flipping a bit character twice gives it back. -/
theorem flipBit_flipBit (c : Char) (h : c = '0' ∨ c = '1') : flipBit (flipBit c) = c := by
  rcases h with rfl | rfl <;> decide

/-- Every position of the flip loop's output holds the original character or
its complement, provided the input is a bit string. -/
theorem flipFuel_getD : ∀ (fuel interval : Nat) (bits : List Char) (i : Nat),
    (∀ c ∈ bits, c = '0' ∨ c = '1') → ∀ j,
      (flipFuel fuel interval bits i).getD j ' ' = bits.getD j ' ' ∨
      (flipFuel fuel interval bits i).getD j ' ' = flipBit (bits.getD j ' ')
  | 0, _, _, _, _, _ => Or.inl rfl
  | fuel + 1, interval, bits, i, hb, j => by
    simp only [flipFuel]
    split
    · have hb' : ∀ c ∈ bits.set i (if bits.getD i ' ' = '1' then '0' else '1'),
          c = '0' ∨ c = '1' := by
        intro c hc
        rcases List.mem_or_eq_of_mem_set hc with hc | rfl
        · exact hb c hc
        · split <;> simp
      have ih := flipFuel_getD fuel interval
        (bits.set i (if bits.getD i ' ' = '1' then '0' else '1')) (i + interval) hb' j
      have hset : (bits.set i (if bits.getD i ' ' = '1' then '0' else '1')).getD j ' ' =
          bits.getD j ' ' ∨
          ((bits.set i (if bits.getD i ' ' = '1' then '0' else '1')).getD j ' ' =
            flipBit (bits.getD j ' ') ∧ j < bits.length) := by
        rw [getD_set]
        split
        · rcases ‹i = j ∧ i < bits.length› with ⟨rfl, hlt⟩
          exact Or.inr ⟨rfl, hlt⟩
        · left; rfl
      rcases ih with ih | ih <;> rcases hset with hset | ⟨hset, hj⟩
      · left; rw [ih, hset]
      · right; rw [ih, hset]
      · right; rw [ih, hset]
      · left
        rw [ih, hset]
        have hjm : bits.getD j ' ' ∈ bits := by
          rw [List.getD_eq_getElem?_getD, List.getElem?_eq_getElem hj]
          exact List.getElem_mem hj
        exact flipBit_flipBit _ (hb _ hjm)
    · exact Or.inl rfl

/-- The ECC-encoded stream's length is always a multiple of 7. -/
theorem hamming_encode_length_mod7 (B : List Char) :
    (hamming_7_4_encode B).1.length % 7 = 0 := by
  by_cases hB : B = []
  · subst hB; rfl
  · simp only [hamming_7_4_encode, if_neg hB]
    simp only [int_list_to_bitstr, List.length_map]
    rw [encodeGroups_length]
    · omega
    · simp only [List.length_map, List.length_append, List.length_replicate]
      omega

/-- C10: `add_errors` returns a string of the same length in which every
position holds the original bit or its complement; consequently the
corrupted stream inside `run_full_pipeline` still has length a multiple of
7 and both Hamming decode steps return normally instead of hitting the
structural fault. -/
theorem C10_add_errors_shape (rand : Nat → Nat → Nat) (bits : List Char) (interval : Int) :
    (add_errors rand bits interval).length = bits.length ∧
    ((∀ c ∈ bits, c = '0' ∨ c = '1') → ∀ j,
      (add_errors rand bits interval).getD j ' ' = bits.getD j ' ' ∨
      (add_errors rand bits interval).getD j ' ' = flipBit (bits.getD j ' ')) ∧
    (∀ (B : List Char) (pad : Nat),
      (∃ r, hamming_7_4_decode (add_errors rand (hamming_7_4_encode B).1 interval) pad =
        Except.ok r) ∧
      (∃ r, hamming_7_4_decode_no_correction
          (add_errors rand (hamming_7_4_encode B).1 interval) pad = Except.ok r)) := by
  refine ⟨add_errors_length rand bits interval, ?_, ?_⟩
  · intro hb j
    unfold add_errors
    split
    · exact Or.inl rfl
    · exact flipFuel_getD _ _ bits _ hb j
  · intro B pad
    have hlen : (add_errors rand (hamming_7_4_encode B).1 interval).length % 7 = 0 := by
      rw [add_errors_length]
      exact hamming_encode_length_mod7 B
    exact ⟨(C8_decode_structural_fault _ pad).2.1.mpr hlen,
      (C8_decode_structural_fault _ pad).2.2.2.mpr hlen⟩

/-- Witness for C10's conditional conjunct at a concrete input. -/
theorem C10_add_errors_shape_witness :
    (add_errors (fun _ _ => 1) ['0', '0', '1', '0', '1', '1', '0'] 2).getD 0 ' ' =
      (['0', '0', '1', '0', '1', '1', '0'] : List Char).getD 0 ' ' ∨
    (add_errors (fun _ _ => 1) ['0', '0', '1', '0', '1', '1', '0'] 2).getD 0 ' ' =
      flipBit ((['0', '0', '1', '0', '1', '1', '0'] : List Char).getD 0 ' ') :=
  (C10_add_errors_shape (fun _ _ => 1) ['0', '0', '1', '0', '1', '1', '0'] 2).2.1
    (by decide) 0

/-- C9: on the empty text the pipeline returns the all-empty result with
`pad_bits = 0` and all four correctness flags true, for every choice of the
corruption draw and every positive interval. -/
theorem C9_empty_pipeline (rand : Nat → Nat → Nat) (interval : Int) (h : 0 < interval) :
    run_full_pipeline rand [] interval =
      Except.ok ⟨0, [], [], [], [], [], 0, [], [], [], true, [], [], true, true, true⟩ := rfl

/-- Witness for C9 at the default interval 50. -/
theorem C9_empty_pipeline_witness :
    run_full_pipeline (fun _ _ => 0) [] 50 =
      Except.ok ⟨0, [], [], [], [], [], 0, [], [], [], true, [], [], true, true, true⟩ :=
  C9_empty_pipeline (fun _ _ => 0) 50 (by decide)

/-! ### The `hamming_ok` flag (C4) -/

/-- C4 counterexample: on text "AAAB" with interval 1 the pipeline's
`hamming_ok` flag is `false`, although Hamming-decoding the uncorrupted
ECC stream does reproduce the pre-ECC `encoded_bits` — the flag is computed
from the corrupted stream, not the uncorrupted one. -/
theorem C4_counterexample :
    (run_full_pipeline (fun _ _ => 0) ['A', 'A', 'A', 'B'] 1).map
      (fun r => (r.hamming_ok,
        decide (hamming_7_4_decode r.hamming_bits r.pad_bits = Except.ok r.encoded_bits))) =
    Except.ok (false, true) := by decide

/-- C4 (amended): the `hamming_ok` flag reports the ECC round trip of the
*corrupted* stream: it is true exactly when Hamming-decoding (with
correction) the corrupted stream reproduces the pre-ECC `encoded_bits`. -/
theorem C4_hamming_ok_meaning (rand : Nat → Nat → Nat) (text : List Char) (interval : Int)
    (r : PipelineResult) (h : run_full_pipeline rand text interval = Except.ok r) :
    r.hamming_ok = true ↔
      hamming_7_4_decode r.corrupted_bits r.pad_bits = Except.ok r.encoded_bits := by
  unfold run_full_pipeline at h
  simp only [bind, Except.bind] at h
  repeat' split at h
  all_goals first
    | (injection h; done)
    | (rename_i rec hrec
       rw [Except.ok.injEq] at h
       subst h
       dsimp only
       constructor
       · intro hd
         rw [hrec, Except.ok.injEq]
         exact of_decide_eq_true hd
       · intro hd
         rw [hrec, Except.ok.injEq] at hd
         exact decide_eq_true hd)

/-- Witness for C4 (amended) on the empty-text pipeline run. -/
theorem C4_hamming_ok_meaning_witness :
    (⟨0, [], [], [], [], [], 0, [], [], [], true, [], [], true, true, true⟩ :
        PipelineResult).hamming_ok = true ↔
      hamming_7_4_decode
        (⟨0, [], [], [], [], [], 0, [], [], [], true, [], [], true, true, true⟩ :
          PipelineResult).corrupted_bits
        (⟨0, [], [], [], [], [], 0, [], [], [], true, [], [], true, true, true⟩ :
          PipelineResult).pad_bits =
      Except.ok
        (⟨0, [], [], [], [], [], 0, [], [], [], true, [], [], true, true, true⟩ :
          PipelineResult).encoded_bits :=
  C4_hamming_ok_meaning (fun _ _ => 0) [] 50 _ (by decide)

/-! ### Permutation lemmas for array-style writes -/

/-- Writing the element already at `i` changes nothing. -/
theorem set_getD_self (l : List HuffmanNode) (i : Nat) (d : HuffmanNode) (h : i < l.length) :
    l.set i (l.getD i d) = l := by
  induction l generalizing i with
  | nil => simp at h
  | cons x xs ih =>
    cases i with
    | zero => simp
    | succ i =>
      simp only [List.getD_cons_succ, List.set_cons_succ, List.cons.injEq, true_and]
      exact ih i (by simpa using h)

/-- `l.set i a` is `a` together with `l` minus its `i`-th element. -/
theorem set_perm_cons_eraseIdx (l : List HuffmanNode) (i : Nat) (a : HuffmanNode)
    (h : i < l.length) : (l.set i a).Perm (a :: l.eraseIdx i) := by
  induction l generalizing i with
  | nil => simp at h
  | cons x xs ih =>
    cases i with
    | zero => simp
    | succ i =>
      simp only [List.set_cons_succ, List.eraseIdx_cons_succ]
      exact (List.Perm.cons x (ih i (by simpa using h))).trans (List.Perm.swap a x _)

/-- A list is its `i`-th element together with the rest. -/
theorem perm_getD_cons_eraseIdx (l : List HuffmanNode) (i : Nat) (d : HuffmanNode)
    (h : i < l.length) : l.Perm (l.getD i d :: l.eraseIdx i) := by
  have := set_perm_cons_eraseIdx l i (l.getD i d) h
  rwa [set_getD_self l i d h] at this

/-- Copying position `j` over position `i` and then overwriting position `j`
is, up to permutation, just overwriting position `i`. -/
theorem perm_set_set (l : List HuffmanNode) (i j : Nat) (d a : HuffmanNode)
    (hij : i ≠ j) (hi : i < l.length) (hj : j < l.length) :
    ((l.set i (l.getD j d)).set j a).Perm (l.set i a) := by
  induction l generalizing i j with
  | nil => simp at hi
  | cons x xs ih =>
    cases i with
    | zero =>
      cases j with
      | zero => exact absurd rfl hij
      | succ j =>
        simp only [List.getD_cons_succ, List.set_cons_zero, List.set_cons_succ]
        have h1 : (xs.set j a).Perm (a :: xs.eraseIdx j) :=
          set_perm_cons_eraseIdx xs j a (by simpa using hj)
        have h2 : xs.Perm (xs.getD j d :: xs.eraseIdx j) :=
          perm_getD_cons_eraseIdx xs j d (by simpa using hj)
        exact (List.Perm.cons _ h1).trans
          ((List.Perm.swap _ _ _).trans (List.Perm.cons _ h2.symm))
    | succ i =>
      cases j with
      | zero =>
        simp only [List.getD_cons_zero, List.set_cons_succ, List.set_cons_zero]
        have h1 : (xs.set i x).Perm (x :: xs.eraseIdx i) :=
          set_perm_cons_eraseIdx xs i x (by simpa using hi)
        have h2 : (xs.set i a).Perm (a :: xs.eraseIdx i) :=
          set_perm_cons_eraseIdx xs i a (by simpa using hi)
        exact (List.Perm.cons _ h1).trans
          ((List.Perm.swap _ _ _).trans (List.Perm.cons _ h2.symm))
      | succ j =>
        simp only [List.getD_cons_succ, List.set_cons_succ]
        exact List.Perm.cons x
          (ih i j (fun hc => hij (by rw [hc])) (by simpa using hi) (by simpa using hj))

/-! ### The heap operations permute the heap -/

/-- `siftdownFuel` produces a permutation of the heap with `newitem` written
at `pos`. -/
theorem siftdownFuel_perm : ∀ (fuel : Nat) (heap : List HuffmanNode) (s pos : Nat)
    (ni : HuffmanNode), pos < heap.length →
    (siftdownFuel fuel heap s pos ni).Perm (heap.set pos ni)
  | 0, heap, _, pos, ni, _ => List.Perm.refl _
  | fuel + 1, heap, s, pos, ni, hpos => by
    simp only [siftdownFuel]
    split
    · split
      · rename_i hlt _
        have hppos : (pos - 1) / 2 < pos := by omega
        have h1 := siftdownFuel_perm fuel (heap.set pos (heap.getD ((pos - 1) / 2) default))
          s ((pos - 1) / 2) ni (by simp; omega)
        refine h1.trans ?_
        exact perm_set_set heap pos ((pos - 1) / 2) default ni (by omega) hpos (by omega)
      · exact List.Perm.refl _
    · exact List.Perm.refl _

/-- `siftdown` permutes the heap. -/
theorem siftdown_perm (heap : List HuffmanNode) (s pos : Nat) (hpos : pos < heap.length) :
    (siftdown heap s pos).Perm heap := by
  unfold siftdown
  have := siftdownFuel_perm pos heap s pos (heap.getD pos default) hpos
  rwa [set_getD_self heap pos default hpos] at this

/-- `siftupFuel` produces a permutation of the heap with `newitem` written
at `pos`. -/
theorem siftupFuel_perm : ∀ (fuel : Nat) (heap : List HuffmanNode) (s pos : Nat)
    (ni : HuffmanNode), pos < heap.length →
    (siftupFuel fuel heap s pos ni).Perm (heap.set pos ni)
  | 0, heap, s, pos, ni, hpos => by
    simp only [siftupFuel]
    exact siftdown_perm (heap.set pos ni) s pos (by simpa using hpos)
  | fuel + 1, heap, s, pos, ni, hpos => by
    simp only [siftupFuel]
    split
    · rename_i hguard
      set childpos := if 2 * pos + 2 < heap.length ∧
          ¬ (heap.getD (2 * pos + 1) default).prob < (heap.getD (2 * pos + 2) default).prob
        then 2 * pos + 2 else 2 * pos + 1 with hchild
      have hcp : childpos < heap.length := by
        rw [hchild]; split <;> omega
      have hcpos : pos < childpos := by
        rw [hchild]; split <;> omega
      have h1 := siftupFuel_perm fuel (heap.set pos (heap.getD childpos default))
        s childpos ni (by simpa using hcp)
      refine h1.trans ?_
      exact perm_set_set heap pos childpos default ni (by omega) (by omega) hcp
    · exact siftdown_perm (heap.set pos ni) s pos (by simpa using hpos)

/-- `siftup` permutes the heap. -/
theorem siftup_perm (heap : List HuffmanNode) (pos : Nat) (hpos : pos < heap.length) :
    (siftup heap pos).Perm heap := by
  unfold siftup
  have := siftupFuel_perm heap.length heap pos pos (heap.getD pos default) hpos
  rwa [set_getD_self heap pos default hpos] at this

/-- The heapify loop permutes the heap. -/
theorem heapifyAux_perm : ∀ (k : Nat) (heap : List HuffmanNode), k ≤ heap.length →
    (heapifyAux heap k).Perm heap
  | 0, _, _ => List.Perm.refl _
  | k + 1, heap, hk => by
    simp only [heapifyAux]
    have hs := siftup_perm heap k (by omega)
    have hlen : (siftup heap k).length = heap.length := hs.length_eq
    exact (heapifyAux_perm k (siftup heap k) (by omega)).trans hs

/-- `heapify` permutes the heap. -/
theorem heapify_perm (heap : List HuffmanNode) : (heapify heap).Perm heap :=
  heapifyAux_perm _ heap (by omega)

/-- `heappush` adds exactly the pushed item. -/
theorem heappush_perm (heap : List HuffmanNode) (item : HuffmanNode) :
    (heappush heap item).Perm (item :: heap) := by
  unfold heappush
  have h1 := siftdown_perm (heap ++ [item]) 0 heap.length (by simp)
  exact h1.trans (List.perm_append_singleton item heap)

/-- `heappop` removes exactly the returned item. -/
theorem heappop_perm (heap : List HuffmanNode) (x : HuffmanNode) (h' : List HuffmanNode)
    (h : heappop heap = some (x, h')) : heap.Perm (x :: h') := by
  unfold heappop at h
  cases hlast : heap.getLast? with
  | none => rw [hlast] at h; exact absurd h (by simp)
  | some lastelt =>
    rw [hlast] at h
    have hne : heap ≠ [] := by
      intro hc; rw [hc] at hlast; simp at hlast
    have hdec : heap.dropLast ++ [lastelt] = heap := by
      have h1 := List.dropLast_append_getLast hne
      have h2 : heap.getLast hne = lastelt := by
        have h3 := List.getLast?_eq_getLast heap hne
        rw [hlast] at h3
        exact (Option.some.inj h3).symm
      rw [h2] at h1
      exact h1
    cases hdrop : heap.dropLast with
    | nil =>
      rw [hdrop] at h
      simp only [Option.some.injEq, Prod.mk.injEq] at h
      obtain ⟨rfl, rfl⟩ := h
      rw [hdrop] at hdec
      simp only [List.nil_append] at hdec
      rw [← hdec]
    | cons r0 rest =>
      rw [hdrop] at h
      simp only [Option.some.injEq, Prod.mk.injEq] at h
      obtain ⟨rfl, rfl⟩ := h
      have hsp := siftup_perm ((r0 :: rest).set 0 lastelt) 0 (by simp)
      have hset : ((r0 :: rest).set 0 lastelt) = lastelt :: rest := rfl
      rw [hset] at hsp
      have hheap : heap = r0 :: (rest ++ [lastelt]) := by
        rw [← hdec, hdrop]
        rfl
      rw [hheap, hset]
      exact List.Perm.cons r0 ((List.perm_append_singleton _ _).trans hsp.symm)

/-- `heappop` succeeds on a non-empty heap. -/
theorem heappop_isSome (heap : List HuffmanNode) (hne : heap ≠ []) :
    ∃ x h', heappop heap = some (x, h') := by
  unfold heappop
  cases hlast : heap.getLast? with
  | none => exact absurd (List.getLast?_eq_none_iff.mp hlast) hne
  | some lastelt =>
    cases hdrop : heap.dropLast with
    | nil => exact ⟨lastelt, [], rfl⟩
    | cons r0 rest => exact ⟨r0, _, rfl⟩

/-- `heappop` shrinks the heap by one. -/
theorem heappop_length (heap : List HuffmanNode) (x : HuffmanNode) (h' : List HuffmanNode)
    (h : heappop heap = some (x, h')) : h'.length = heap.length - 1 := by
  have := (heappop_perm heap x h' h).length_eq
  simp only [List.length_cons] at this
  omega

/-- `heappush` grows the heap by one. -/
theorem heappush_length (heap : List HuffmanNode) (item : HuffmanNode) :
    (heappush heap item).length = heap.length + 1 := by
  have := (heappush_perm heap item).length_eq
  simpa using this

/-- A heap with at most one element is left alone by the merge loop. -/
theorem buildFuel_short (fuel : Nat) (heap : List HuffmanNode) (h : heap.length ≤ 1) :
    buildFuel fuel heap = heap := by
  cases fuel with
  | zero => rfl
  | succ fuel =>
    simp only [buildFuel]
    rw [if_neg (by omega)]

/-- One iteration of the merge loop, in explicit form. -/
theorem buildFuel_step (fuel : Nat) (heap : List HuffmanNode) (hlen : 1 < heap.length)
    (n1 n2 : HuffmanNode) (h1 h2 : List HuffmanNode)
    (hpop1 : heappop heap = some (n1, h1)) (hpop2 : heappop h1 = some (n2, h2)) :
    buildFuel (fuel + 1) heap =
      buildFuel fuel (heappush h2 (.mk none (qadd n1.prob n2.prob) (some n1) (some n2))) := by
  simp only [buildFuel]
  rw [if_pos hlen, hpop1]
  dsimp only
  rw [hpop2]

/-- The merged symbols of the heap are invariant under the merge loop. -/
theorem buildFuel_leafSyms : ∀ (fuel : Nat) (heap : List HuffmanNode),
    (((buildFuel fuel heap).map leafSyms).flatten).Perm ((heap.map leafSyms).flatten)
  | 0, heap => List.Perm.refl _
  | fuel + 1, heap => by
    by_cases hlen : 1 < heap.length
    · obtain ⟨n1, h1, hpop1⟩ := heappop_isSome heap (by
        intro hc; rw [hc] at hlen; simp at hlen)
      have hlen1 : h1.length = heap.length - 1 := heappop_length heap n1 h1 hpop1
      obtain ⟨n2, h2, hpop2⟩ := heappop_isSome h1 (by
        intro hc; rw [hc] at hlen1; simp at hlen1; omega)
      rw [buildFuel_step fuel heap hlen n1 n2 h1 h2 hpop1 hpop2]
      have hperm1 := heappop_perm heap n1 h1 hpop1
      have hperm2 := heappop_perm h1 n2 h2 hpop2
      have hpush := heappush_perm h2 (.mk none (qadd n1.prob n2.prob) (some n1) (some n2))
      have ih := buildFuel_leafSyms fuel
        (heappush h2 (.mk none (qadd n1.prob n2.prob) (some n1) (some n2)))
      refine ih.trans ?_
      refine ((List.Perm.map leafSyms hpush).flatten).trans ?_
      have e2 : (((HuffmanNode.mk none (qadd n1.prob n2.prob) (some n1) (some n2)) :: h2).map
          leafSyms).flatten =
          (leafSyms n1 ++ leafSyms n2) ++ (h2.map leafSyms).flatten := by
        simp [leafSyms]
      rw [e2]
      have e3 : ((heap.map leafSyms).flatten).Perm
          ((leafSyms n1 ++ leafSyms n2) ++ (h2.map leafSyms).flatten) := by
        have p1 : ((heap.map leafSyms).flatten).Perm (((n1 :: h1).map leafSyms).flatten) :=
          (List.Perm.map leafSyms hperm1).flatten
        have p2 : (((n1 :: h1).map leafSyms).flatten) =
            leafSyms n1 ++ (h1.map leafSyms).flatten := by simp
        have p3 : ((h1.map leafSyms).flatten).Perm
            (leafSyms n2 ++ (h2.map leafSyms).flatten) := by
          have := (List.Perm.map leafSyms hperm2).flatten
          simpa using this
        rw [p2] at p1
        refine p1.trans ?_
        refine (List.Perm.append_left (leafSyms n1) p3).trans ?_
        rw [← List.append_assoc]
      exact e3.symm
    · rw [buildFuel_short (fuel + 1) heap (by omega)]

/-- The merge loop ends with exactly one node when given enough fuel. -/
theorem buildFuel_length_one : ∀ (fuel : Nat) (heap : List HuffmanNode),
    1 ≤ heap.length → heap.length ≤ fuel + 1 → (buildFuel fuel heap).length = 1
  | 0, heap, h1, h2 => by
    rw [buildFuel_short 0 heap (by omega)]
    omega
  | fuel + 1, heap, h1, h2 => by
    by_cases hle : heap.length ≤ 1
    · rw [buildFuel_short (fuel + 1) heap hle]; omega
    · obtain ⟨n1, h1', hpop1⟩ := heappop_isSome heap (by
        intro hc; rw [hc] at hle; simp at hle)
      have hlen1 : h1'.length = heap.length - 1 := heappop_length heap n1 h1' hpop1
      obtain ⟨n2, h2', hpop2⟩ := heappop_isSome h1' (by
        intro hc; rw [hc] at hlen1; simp at hlen1; omega)
      have hlen2 : h2'.length = h1'.length - 1 := heappop_length h1' n2 h2' hpop2
      have hlenpush := heappush_length h2'
        (.mk none (qadd n1.prob n2.prob) (some n1) (some n2))
      rw [buildFuel_step fuel heap (by omega) n1 n2 h1' h2' hpop1 hpop2]
      exact buildFuel_length_one fuel _ (by omega) (by omega)

/-- With at least two symbols the merge loop's final node is internal. -/
theorem buildFuel_head_internal : ∀ (fuel : Nat) (heap : List HuffmanNode),
    2 ≤ heap.length → heap.length ≤ fuel + 1 →
    ((buildFuel fuel heap).getD 0 default).symbol = none
  | 0, _, h1, h2 => by omega
  | fuel + 1, heap, h1, h2 => by
    obtain ⟨n1, h1', hpop1⟩ := heappop_isSome heap (by
      intro hc; rw [hc] at h1; simp at h1)
    have hlen1 : h1'.length = heap.length - 1 := heappop_length heap n1 h1' hpop1
    obtain ⟨n2, h2', hpop2⟩ := heappop_isSome h1' (by
      intro hc; rw [hc] at hlen1; simp at hlen1; omega)
    have hlen2 : h2'.length = h1'.length - 1 := heappop_length h1' n2 h2' hpop2
    have hlenpush := heappush_length h2'
      (.mk none (qadd n1.prob n2.prob) (some n1) (some n2))
    rw [buildFuel_step fuel heap (by omega) n1 n2 h1' h2' hpop1 hpop2]
    by_cases hcase : heap.length = 2
    · rw [buildFuel_short fuel _ (by omega)]
      have h20 : h2' = [] := by
        have : h2'.length = 0 := by omega
        exact List.length_eq_zero.mp this
      subst h20
      rfl
    · exact buildFuel_head_internal fuel _ (by omega) (by omega)

/-! ### Code-table lemmas -/

/-- The symbols assigned by `traverse` are exactly the leaf symbols. -/
theorem collect_fst : ∀ (n : Nat) (node : HuffmanNode) (pfx : List Char),
    hsize node ≤ n → (collectCodes node pfx).map Prod.fst = leafSyms node
  | 0, node, _, h => by
    cases node with
    | mk sym p l r => cases l <;> cases r <;> simp [hsize] at h
  | n + 1, node, pfx, h => by
    cases node with
    | mk sym p l r =>
      cases sym with
      | some s => cases l <;> cases r <;> simp [collectCodes, leafSyms]
      | none =>
        cases l with
        | none =>
          cases r with
          | none => simp [collectCodes, leafSyms]
          | some rc =>
            simp only [hsize] at h
            simp only [collectCodes, leafSyms]
            exact collect_fst n rc _ (by omega)
        | some lc =>
          cases r with
          | none =>
            simp only [hsize] at h
            simp only [collectCodes, leafSyms]
            exact collect_fst n lc _ (by omega)
          | some rc =>
            simp only [hsize] at h
            simp only [collectCodes, leafSyms, List.map_append]
            rw [collect_fst n lc _ (by omega), collect_fst n rc _ (by omega)]

/-- Every `traverse` assignment extends the running code `pfx`; at a node
without a symbol the extension is non-empty and describes an actual
root-to-leaf path ending at the assigned symbol; at a node with a symbol the
assignment is the node's own, with the "0" special case for an empty code. -/
theorem collect_shape : ∀ (n : Nat) (node : HuffmanNode) (pfx : List Char)
    (e : Char × List Char), hsize node ≤ n → e ∈ collectCodes node pfx →
    (node.symbol = none → ∃ t, e.2 = pfx ++ t ∧ t ≠ [] ∧ PathTo node t e.1) ∧
    (∀ s, node.symbol = some s → e.1 = s ∧ e.2 = (if pfx = [] then ['0'] else pfx))
  | 0, node, _, _, h, _ => by
    cases node with
    | mk sym p l r => cases l <;> cases r <;> simp [hsize] at h
  | n + 1, node, pfx, e, h, he => by
    cases node with
    | mk sym p l r =>
      cases sym with
      | some s =>
        refine ⟨by simp [HuffmanNode.symbol], fun s' hs' => ?_⟩
        simp only [HuffmanNode.symbol, Option.some.injEq] at hs'
        subst hs'
        simp only [collectCodes, List.mem_singleton] at he
        subst he
        exact ⟨rfl, rfl⟩
      | none =>
        refine ⟨fun _ => ?_, fun s' hs' => by simp [HuffmanNode.symbol] at hs'⟩
        have hchild : ∀ (c : HuffmanNode) (b : Char),
            (if b = '0' then HuffmanNode.left (.mk none p l r)
              else HuffmanNode.right (.mk none p l r)) = some c →
            hsize c ≤ n → e ∈ collectCodes c (pfx ++ [b]) →
            ∃ t, e.2 = pfx ++ t ∧ t ≠ [] ∧ PathTo (.mk none p l r) t e.1 := by
          intro c b hacc hc hec
          cases hcs : c.symbol with
          | some s =>
            have := (collect_shape n c (pfx ++ [b]) e hc hec).2 s hcs
            obtain ⟨he1, he2⟩ := this
            rw [if_neg (by simp)] at he2
            refine ⟨[b], by rw [he2], by simp, ?_⟩
            rw [he1]
            exact PathTo.last hacc hcs
          | none =>
            obtain ⟨t', ht'e, ht'ne, ht'path⟩ :=
              (collect_shape n c (pfx ++ [b]) e hc hec).1 hcs
            refine ⟨b :: t', ?_, by simp, PathTo.step hacc hcs ht'path⟩
            rw [ht'e]
            simp
        cases l with
        | none =>
          cases r with
          | none => simp [collectCodes] at he
          | some rc =>
            simp only [collectCodes] at he
            simp only [hsize] at h
            exact hchild rc '1' (by simp [HuffmanNode.right]) (by omega) he
        | some lc =>
          cases r with
          | none =>
            simp only [collectCodes] at he
            simp only [hsize] at h
            exact hchild lc '0' (by simp [HuffmanNode.left]) (by omega) he
          | some rc =>
            simp only [collectCodes, List.mem_append] at he
            simp only [hsize] at h
            rcases he with he | he
            · exact hchild lc '0' (by simp [HuffmanNode.left]) (by omega) he
            · exact hchild rc '1' (by simp [HuffmanNode.right]) (by omega) he

/-- Following a recorded path, the decoder consumes exactly the code, emits
its symbol and returns to the root. -/
theorem decodeGo_path (root : HuffmanNode) :
    ∀ (t : List Char) (node : HuffmanNode) (s : Char) (rest : List Char),
    PathTo node t s → decodeGo root node (t ++ rest) = s :: decodeGo root root rest := by
  intro t node s rest hpath
  induction hpath with
  | last hacc hsym =>
    simp only [List.cons_append, List.nil_append, decodeGo]
    rw [hacc]
    dsimp only
    rw [hsym]
    rfl
  | step hacc hsym _ ih =>
    simp only [List.cons_append, decodeGo]
    rw [hacc]
    dsimp only
    rw [hsym]
    exact ih

/-- A successful dict lookup returns one of the stored bindings. -/
theorem dictGet_mem {α : Type} : ∀ (d : List (Char × α)) (k : Char) (v : α),
    dictGet d k = some v → (k, v) ∈ d
  | [], _, _, h => by simp [dictGet] at h
  | kv :: rest, k, v, h => by
    unfold dictGet at h
    cases hrest : dictGet rest k with
    | some v' =>
      rw [hrest] at h
      dsimp only at h
      simp only [Option.some.injEq] at h
      subst h
      exact List.mem_cons_of_mem _ (dictGet_mem rest k v' hrest)
    | none =>
      rw [hrest] at h
      dsimp only at h
      split at h
      · rename_i hk
        simp only [Option.some.injEq] at h
        subst h
        subst hk
        exact List.mem_cons_self _ _
      · simp at h

/-- A key present among the bindings' keys looks up successfully. -/
theorem dictGet_isSome {α : Type} : ∀ (d : List (Char × α)) (k : Char),
    k ∈ d.map Prod.fst → ∃ v, dictGet d k = some v
  | [], _, h => by simp at h
  | kv :: rest, k, h => by
    simp only [dictGet]
    cases hrest : dictGet rest k with
    | some v' => exact ⟨v', rfl⟩
    | none =>
      simp only [List.map_cons, List.mem_cons] at h
      rcases h with h | h
      · exact ⟨kv.2, by rw [if_pos h]⟩
      · obtain ⟨v, hv⟩ := dictGet_isSome rest k h
        rw [hv] at hrest
        exact absurd hrest (by simp)

/-- Encoding with a table whose every entry names a real path decodes back
to the original text, provided every character of the text has a code. -/
theorem encode_decode_roundtrip (root : HuffmanNode) (codes : List (Char × List Char))
    (hpaths : ∀ e ∈ codes, PathTo root e.2 e.1) :
    ∀ (text : List Char), (∀ ch ∈ text, ch ∈ codes.map Prod.fst) →
    ∃ bits, huffman_encode text codes = some bits ∧ decodeGo root root bits = text
  | [], _ => ⟨[], rfl, rfl⟩
  | ch :: rest, hcov => by
    obtain ⟨c, hc⟩ := dictGet_isSome codes ch (hcov ch (by simp))
    obtain ⟨bits', hb', hd'⟩ := encode_decode_roundtrip root codes hpaths rest
      (fun x hx => hcov x (by simp [hx]))
    refine ⟨c ++ bits', ?_, ?_⟩
    · simp only [huffman_encode]
      rw [hc, hb']
    · rw [decodeGo_path root c root ch bits' (hpaths (ch, c) (dictGet_mem codes ch c hc)), hd']

/-- Membership in the `firstOccsAux` accumulator-based scan. -/
theorem mem_firstOccsAux : ∀ (text : List Char) (seen : List Char) (c : Char),
    c ∈ firstOccsAux seen text ↔ (c ∈ text ∧ c ∉ seen)
  | [], seen, c => by simp [firstOccsAux]
  | d :: rest, seen, c => by
    simp only [firstOccsAux]
    split
    · rename_i hd
      rw [mem_firstOccsAux rest seen c]
      simp only [List.mem_cons]
      constructor
      · rintro ⟨hc, hns⟩
        exact ⟨Or.inr hc, hns⟩
      · rintro ⟨hc | hc, hns⟩
        · subst hc; exact absurd hd hns
        · exact ⟨hc, hns⟩
    · rename_i hd
      simp only [List.mem_cons, mem_firstOccsAux rest (d :: seen) c]
      constructor
      · rintro (rfl | ⟨hc, hns⟩)
        · exact ⟨Or.inl rfl, hd⟩
        · refine ⟨Or.inr hc, fun hcs => hns (by simp [hcs])⟩
      · rintro ⟨rfl | hc, hns⟩
        · exact Or.inl rfl
        · by_cases hcd : c = d
          · exact Or.inl hcd
          · exact Or.inr ⟨hc, by simp [hcd, hns]⟩

/-- A character occurs in `firstOccs text` exactly when it occurs in the text. -/
theorem mem_firstOccs (text : List Char) (c : Char) : c ∈ firstOccs text ↔ c ∈ text := by
  rw [firstOccs, mem_firstOccsAux]
  simp

/-- The keys of the distribution are the text's characters in
first-occurrence order. -/
theorem compute_keys (text : List Char) (h : text ≠ []) :
    (compute_symbol_probabilities text).map Prod.fst = firstOccs text := by
  simp [compute_symbol_probabilities, h, List.map_map, Function.comp_def]

/-- A list of length one is the singleton of its first element. -/
theorem length_one_eq (l : List HuffmanNode) (h : l.length = 1) :
    l = [l.getD 0 default] := by
  cases l with
  | nil => simp at h
  | cons x xs =>
    cases xs with
    | nil => rfl
    | cons y ys => simp at h

/-- The joined leaf symbols of the seeded heap are the distribution's keys. -/
theorem seed_leafSyms : ∀ (ps : List (Char × ℚ)),
    (((ps.map fun sp => HuffmanNode.mk (some sp.1) sp.2 none none).map leafSyms).flatten) =
      ps.map Prod.fst
  | [] => rfl
  | sp :: rest => by
    simp only [List.map_cons, List.flatten_cons, leafSyms, List.map_cons]
    rw [seed_leafSyms rest]
    rfl

/-- The tree built from a non-empty distribution: it exists, its root has no
symbol, and its leaf symbols are a permutation of the distribution's keys. -/
theorem build_tree_facts (probs : List (Char × ℚ)) (hne : probs ≠ []) :
    ∃ root, build_huffman_tree probs = some root ∧ root.symbol = none ∧
      (leafSyms root).Perm (probs.map Prod.fst) := by
  have hheapne : (probs.map fun sp => HuffmanNode.mk (some sp.1) sp.2 none none) ≠ [] := by
    simpa using hne
  unfold build_huffman_tree
  rw [if_neg (by simpa [List.isEmpty_iff] using hheapne)]
  set heap0 := probs.map fun sp => HuffmanNode.mk (some sp.1) sp.2 none none with hheap0
  have hperm0 : (heapify heap0).Perm heap0 := heapify_perm heap0
  have hlen0 : (heapify heap0).length = heap0.length := hperm0.length_eq
  by_cases h1 : (heapify heap0).length = 1
  · rw [if_pos h1]
    set only := (heapify heap0).getD 0 default with honly
    refine ⟨_, rfl, rfl, ?_⟩
    have hsingle : heapify heap0 = [only] := length_one_eq _ h1
    have hperm1 : (List.Perm [only] heap0) := hsingle ▸ hperm0
    have : leafSyms (.mk none only.prob (some only) none) = leafSyms only := by
      simp [leafSyms]
    rw [this]
    have hflat := (List.Perm.map leafSyms hperm1).flatten
    rw [seed_leafSyms probs] at hflat
    simpa using hflat
  · rw [if_neg h1]
    have hge2 : 2 ≤ (heapify heap0).length := by
      have : 1 ≤ heap0.length := by
        cases hp : heap0 with
        | nil => exact absurd hp hheapne
        | cons x xs => simp
      omega
    refine ⟨_, rfl, ?_, ?_⟩
    · exact buildFuel_head_internal (heapify heap0).length (heapify heap0) hge2 (by omega)
    · have hlone : (buildFuel (heapify heap0).length (heapify heap0)).length = 1 :=
        buildFuel_length_one _ _ (by omega) (by omega)
      have hres : buildFuel (heapify heap0).length (heapify heap0) =
          [(buildFuel (heapify heap0).length (heapify heap0)).getD 0 default] :=
        length_one_eq _ hlone
      have hsyms := buildFuel_leafSyms (heapify heap0).length (heapify heap0)
      rw [hres] at hsyms
      simp only [List.map_cons, List.map_nil, List.flatten_cons, List.flatten_nil,
        List.append_nil] at hsyms
      refine hsyms.trans ?_
      have := (List.Perm.map leafSyms hperm0).flatten
      rw [seed_leafSyms probs] at this
      exact this

/-- C1: For every non-empty text, building the distribution, the Huffman
tree and the code table from the text itself, encoding succeeds and decoding
the encoded bits returns the original text (lossless round trip). -/
theorem C1_huffman_roundtrip (T : List Char) (hT : T ≠ []) :
    ∃ bits,
      huffman_encode T
        (build_huffman_codes (build_huffman_tree (compute_symbol_probabilities T))) =
          some bits ∧
      huffman_decode bits (build_huffman_tree (compute_symbol_probabilities T)) = T := by
  have hprobs_ne : compute_symbol_probabilities T ≠ [] := by
    intro hc
    have := compute_keys T hT
    rw [hc] at this
    cases hTc : T with
    | nil => exact hT hTc
    | cons c cs =>
      have : c ∈ firstOccs T := (mem_firstOccs T c).mpr (by rw [hTc]; simp)
      rw [← compute_keys T hT, hc] at this
      simp at this
  obtain ⟨root, hroot, hsym, hperm⟩ := build_tree_facts _ hprobs_ne
  rw [hroot]
  have hpaths : ∀ e ∈ collectCodes root [], PathTo root e.2 e.1 := by
    intro e he
    obtain ⟨t, hte, htne, htpath⟩ :=
      (collect_shape (hsize root) root [] e (le_refl _) he).1 hsym
    simpa [hte] using htpath
  have hcov : ∀ ch ∈ T, ch ∈ (collectCodes root []).map Prod.fst := by
    intro ch hch
    rw [collect_fst (hsize root) root [] (le_refl _)]
    rw [hperm.mem_iff, compute_keys T hT, mem_firstOccs]
    exact hch
  obtain ⟨bits, henc, hdec⟩ :=
    encode_decode_roundtrip root (collectCodes root []) hpaths T hcov
  exact ⟨bits, henc, hdec⟩

/-- Witness for C1 at the text "AAAB". -/
theorem C1_huffman_roundtrip_witness :
    ∃ bits,
      huffman_encode ['A', 'A', 'A', 'B']
        (build_huffman_codes
          (build_huffman_tree (compute_symbol_probabilities ['A', 'A', 'A', 'B']))) =
          some bits ∧
      huffman_decode bits
        (build_huffman_tree (compute_symbol_probabilities ['A', 'A', 'A', 'B'])) =
        ['A', 'A', 'A', 'B'] :=
  C1_huffman_roundtrip ['A', 'A', 'A', 'B'] (by decide)

/-- Codes from different branches of a node are incomparable: one cannot be
an initial segment of the other because they differ right after `pfx`. -/
theorem noPref_of_branches (pfx x y : List Char) :
    ¬ codePref ((pfx ++ ['0']) ++ x) ((pfx ++ ['1']) ++ y) := by
  rintro ⟨u, hu⟩
  rw [List.append_assoc pfx ['0'] x, List.append_assoc, List.append_assoc pfx ['1'] y] at hu
  have := List.append_cancel_left hu
  simp at this

/-- Every code recorded below a non-empty running prefix extends it. -/
theorem collect_code_extends (n : Nat) (c : HuffmanNode) (pfx : List Char)
    (e : Char × List Char) (hn : hsize c ≤ n) (he : e ∈ collectCodes c pfx)
    (hpfx : pfx ≠ []) : ∃ t, e.2 = pfx ++ t := by
  cases hcs : c.symbol with
  | none =>
    obtain ⟨t, ht, _, _⟩ := (collect_shape n c pfx e hn he).1 hcs
    exact ⟨t, ht⟩
  | some s =>
    obtain ⟨_, he2⟩ := (collect_shape n c pfx e hn he).2 s hcs
    rw [if_neg hpfx] at he2
    exact ⟨[], by rw [he2, List.append_nil]⟩

/-- The codes recorded by `traverse` are pairwise incomparable: no recorded
code is an initial segment of another recorded code. -/
theorem collect_pairwise : ∀ (n : Nat) (node : HuffmanNode) (pfx : List Char),
    hsize node ≤ n → (collectCodes node pfx).Pairwise
      (fun e1 e2 => ¬ codePref e1.2 e2.2 ∧ ¬ codePref e2.2 e1.2)
  | 0, node, _, h => by
    cases node with
    | mk sym p l r => cases l <;> cases r <;> simp [hsize] at h
  | n + 1, node, pfx, h => by
    cases node with
    | mk sym p l r =>
      cases sym with
      | some s => cases l <;> cases r <;> simp [collectCodes]
      | none =>
        cases l with
        | none =>
          cases r with
          | none => simp [collectCodes]
          | some rc =>
            simp only [collectCodes]
            simp only [hsize] at h
            exact collect_pairwise n rc _ (by omega)
        | some lc =>
          cases r with
          | none =>
            simp only [collectCodes]
            simp only [hsize] at h
            exact collect_pairwise n lc _ (by omega)
          | some rc =>
            simp only [collectCodes]
            simp only [hsize] at h
            rw [List.pairwise_append]
            refine ⟨collect_pairwise n lc _ (by omega), collect_pairwise n rc _ (by omega), ?_⟩
            intro e1 he1 e2 he2
            obtain ⟨x, hx⟩ := collect_code_extends n lc (pfx ++ ['0']) e1 (by omega) he1 (by simp)
            obtain ⟨y, hy⟩ := collect_code_extends n rc (pfx ++ ['1']) e2 (by omega) he2 (by simp)
            rw [hx, hy]
            refine ⟨noPref_of_branches pfx x y, ?_⟩
            rintro ⟨u, hu⟩
            rw [List.append_assoc pfx ['1'] y, List.append_assoc,
              List.append_assoc pfx ['0'] x] at hu
            have := List.append_cancel_left hu
            simp at this

/-- C7: for a table built from a non-empty distribution, codes of distinct
symbols are never initial segments of one another, every code is non-empty,
and a single-symbol distribution yields the one-entry table `{sym: "0"}`. -/
theorem C7_prefix_free (probs : List (Char × ℚ)) (hne : probs ≠ []) :
    (∀ s1 c1 s2 c2,
      dictGet (build_huffman_codes (build_huffman_tree probs)) s1 = some c1 →
      dictGet (build_huffman_codes (build_huffman_tree probs)) s2 = some c2 →
      s1 ≠ s2 → ¬ codePref c1 c2) ∧
    (∀ s c, dictGet (build_huffman_codes (build_huffman_tree probs)) s = some c →
      1 ≤ c.length) ∧
    (∀ (z : Char) (p : ℚ), build_huffman_codes (build_huffman_tree [(z, p)]) = [(z, ['0'])]) := by
  obtain ⟨root, hroot, hsym, _⟩ := build_tree_facts probs hne
  have hcodes : build_huffman_codes (build_huffman_tree probs) = collectCodes root [] := by
    rw [hroot]
    rfl
  refine ⟨?_, ?_, ?_⟩
  · intro s1 c1 s2 c2 h1 h2 hne12
    rw [hcodes] at h1 h2
    have hm1 := dictGet_mem _ _ _ h1
    have hm2 := dictGet_mem _ _ _ h2
    have hpw := collect_pairwise (hsize root) root [] (le_refl _)
    have hsymm : Symmetric (fun (e1 e2 : Char × List Char) =>
        ¬ codePref e1.2 e2.2 ∧ ¬ codePref e2.2 e1.2) := fun _ _ hr => ⟨hr.2, hr.1⟩
    have hne' : (s1, c1) ≠ (s2, c2) := by
      intro hc
      exact hne12 (congrArg Prod.fst hc)
    exact (List.Pairwise.forall hsymm hpw hm1 hm2 hne').1
  · intro s c hsc
    rw [hcodes] at hsc
    have hm := dictGet_mem _ _ _ hsc
    obtain ⟨t, ht, htne, _⟩ := (collect_shape (hsize root) root [] (s, c) (le_refl _) hm).1 hsym
    simp only [List.nil_append] at ht
    rw [ht]
    cases t with
    | nil => exact absurd rfl htne
    | cons a as => simp
  · intro z p
    simp [build_huffman_tree, build_huffman_codes, heapify, heapifyAux, collectCodes]

/-- Witness for C7: the single-symbol table for symbol 'z'. -/
theorem C7_prefix_free_witness :
    build_huffman_codes (build_huffman_tree [('z', (1 : ℚ))]) = [('z', ['0'])] :=
  (C7_prefix_free [('z', (1 : ℚ))] (by decide)).2.2 'z' 1
